import Mathlib

set_option maxHeartbeats 1000000

/-!
Shallow embedding of `typemallow` (file `typemallow/__init__.py`).

The module keeps two module-level dictionaries, `__schemas` (the registry,
context string to ordered list of schema classes) and `__enums` (context
string to a dict from derived enum name to the choice tuple).  Generation
(`generate_ts`) opens and truncates the output file, looks the context up in
the registry (a `KeyError` escapes when the key is absent), renders one
interface per schema while threading a mutable `_FormatterContext` (the
`scope` counter and the configuration flags) and mutating `__enums`, then
writes the rendered enum block followed by the interface blocks.

Python dictionaries are embedded as association lists with in-place update
semantics (`updateA` / `lookupA`); the mutable formatter context and the
`__enums` global are threaded explicitly as a `GenState`; the output file is
an `Option String` (`none` = never opened, `some s` = opened with current
content `s`) and the possible `KeyError` is an `Except` result.
-/

/-- The primitive field kinds the embedding distinguishes.  `unknown` stands
for any field class absent from the scalar type table. -/
inductive ScalarKind where
  | integer
  | string
  | boolean
  | float
  | unknown
deriving DecidableEq, Repr

/-- A marshmallow validator as far as the source inspects it: line 119 only
tests `type(value.validate) is validate.OneOf`; every other validator is
`other`. -/
inductive Validator where
  | oneOf (choices : List String)
  | other
deriving DecidableEq, Repr

/-- The per-field attributes the source reads: `value.required`,
`value.allow_none`, `value.validate`. -/
structure FieldMeta where
  required : Bool
  allow_none : Bool
  validate : Option Validator
deriving DecidableEq, Repr

mutual
/-- A marshmallow field object as dispatched by `_get_ts_type`:
`fields.Nested` (carrying the referenced schema class name and its declared
fields, plus the `many` flag), `fields.List` (carrying the inner field),
`fields.Dict` (carrying key and value fields), and any other field class
(a scalar kind looked up in the `mappings` table). -/
inductive MField where
  | nested (sname : String) (sfields : MFields) (many : Bool) (meta : FieldMeta)
  | listOf (inner : MField) (meta : FieldMeta)
  | dictOf (key_field : MField) (value_field : MField) (meta : FieldMeta)
  | scalar (kind : ScalarKind) (meta : FieldMeta)
/-- The ordered `_declared_fields` mapping of a schema (key, field) pairs. -/
inductive MFields where
  | nil
  | cons (key : String) (value : MField) (rest : MFields)
end

/-- The `meta` component of a field (its `required` / `allow_none` /
`validate` attributes). -/
def MField.meta : MField → FieldMeta
  | .nested _ _ _ m => m
  | .listOf _ m => m
  | .dictOf _ _ m => m
  | .scalar _ m => m

/-- A schema class: its `__name__` and its ordered `_declared_fields`. -/
structure MSchema where
  name : String
  declared_fields : MFields

/-- The `_FormatterContext` object (lines 8-15): target context, the three
configuration flags, and the mutable `scope` counter (initialised to 1). -/
structure FormatterContext where
  context : String
  strip_schema_keyword : Bool
  oneof_as_enum : Bool
  nested_inner : Bool
  scope : Nat
deriving DecidableEq, Repr

/-- One context's enum dict: derived name to choice list. -/
abbrev EnumMap := List (String × List String)

/-- The module-level `__enums` dict: context to enum dict. -/
abbrev Enums := List (String × EnumMap)

/-- The module-level `__schemas` registry: context to ordered schema list. -/
abbrev Registry := List (String × List MSchema)

/-- The mutable state generation threads: the formatter context object and
the `__enums` global. -/
structure GenState where
  fctx : FormatterContext
  enums : Enums

/-- Python dict lookup `d[k]` / `k in d` on an association list. -/
def lookupA {α : Type} : List (String × α) → String → Option α
  | [], _ => none
  | (k₀, v₀) :: rest, k => if k₀ = k then some v₀ else lookupA rest k

/-- Python dict assignment `d[k] = v`: replaces in place when the key is
present (order preserved), appends at the end otherwise. -/
def updateA {α : Type} : List (String × α) → String → α → List (String × α)
  | [], k, v => [(k, v)]
  | (k₀, v₀) :: rest, k, v =>
      if k₀ = k then (k, v) :: rest else (k₀, v₀) :: updateA rest k v

/-- `'\t' * n` (line 133). -/
def tabs (n : Nat) : String := String.mk (List.replicate n '\t')

/-- Python `str.upper()` over the ASCII identifiers the source handles
(character-wise upper-casing). -/
def upper (s : String) : String := String.mk (s.toList.map Char.toUpper)

/-- Python `name.endswith(suffix)`. -/
def str_ends_with (s suffix : String) : Bool := suffix.toList.isSuffixOf s.toList

/-- Python `name[0:-n]`: drop the last `n` characters (empty result when the
string is no longer than `n`). -/
def str_drop_right (s : String) (n : Nat) : String :=
  String.mk (s.toList.take (s.toList.length - n))

/-- Character-wise model of Python `str.title()`: a letter following a
non-letter is upper-cased, a letter following a letter is lower-cased (Python
tracks "cased" characters; over the identifier alphabet that is `isAlpha`). -/
def titleChars : List Char → Bool → List Char
  | [], _ => []
  | c :: rest, prevCased =>
      (if prevCased then c.toLower else c.toUpper) :: titleChars rest c.isAlpha

/-- `_snake_to_pascal_case` (lines 55-59): replace `_` with a space, apply
`str.title()`, drop all whitespace. -/
def snake_to_pascal_case (key : String) : String :=
  let replaced := key.toList.map fun c => if c = '_' then ' ' else c
  let titled := titleChars replaced false
  String.mk (titled.filter fun c => !c.isWhitespace)

/-- `_format_type_name` (lines 62-67): strip a trailing `Schema` (6
characters) from the class name when `strip_schema_keyword` is set. -/
def format_type_name (name : String) (ctx : FormatterContext) : String :=
  if ctx.strip_schema_keyword then
    if str_ends_with name "Schema" then str_drop_right name 6 else name
  else name

/-- Modelled from the spec: the source imports a `mappings` table from
`typemallow.mappings`, a module absent from the sources.  Per the spec it is
"a fixed mapping from primitive field kinds to target primitive type names,
with a defined fallback for unknown kinds"; the spec pins integer to `number`
(end-to-end scenario, `id: number;`) and string keys/values to `string`. -/
def mappings : ScalarKind → Option String
  | .integer => some "number"
  | .string => some "string"
  | .boolean => some "boolean"
  | .float => some "number"
  | .unknown => none

/-- `mappings.get(field_class, 'any')` applied to a field object's class:
only scalar field classes are in the table; `List`, `Dict` and `Nested`
classes fall back to `'any'` (the `Nested` class is dispatched before any
lookup on every path that can receive one, see `_get_ts_type`). -/
def classMapping : MField → Option String
  | .scalar k _ => mappings k
  | _ => none

/-- The tail of `_get_ts_interface` (lines 138-143): join the field lines,
wrap as a named exported interface at scope 1, as an indented anonymous
object literal (closing brace indented at `scope - 1`) deeper. -/
def interface_wrap (name : String) (lines : List String) (scope : Nat) : String :=
  let ts_fields := String.intercalate "\n" lines
  if scope = 1 then
    "export interface " ++ name ++ " \x7b\n" ++ ts_fields ++ "\n\x7d" ++ "\n\n"
  else
    "\x7b\n" ++ ts_fields ++ "\n" ++ tabs (scope - 1) ++ "\x7d"

mutual
/-- `_get_ts_type` (lines 70-103).  `Nested`: with `nested_inner` bump the
scope, expand the nested interface, restore the scope; otherwise the
formatted (possibly suffix-stripped) class name; either way append `[]` when
`many`.  `List`: a nested inner resolves to the raw class name plus `[]`,
anything else to the class's table entry (fallback `any`) plus `[]`.
`Dict`: key class via the table, value field resolved recursively.
Otherwise: table lookup with fallback `any`. -/
def get_ts_type : MField → GenState → String × GenState
  | .nested sname sfields many _, st =>
      if st.fctx.nested_inner then
        let st₁ : GenState := { st with fctx := { st.fctx with scope := st.fctx.scope + 1 } }
        let r := fields_lines sfields st₁
        let st₂ := r.2
        let t := interface_wrap (format_type_name sname st₁.fctx) r.1 st₂.fctx.scope
        (if many then t ++ "[]" else t,
         { st₂ with fctx := { st₂.fctx with scope := st₂.fctx.scope - 1 } })
      else
        let t := format_type_name sname st.fctx
        (if many then t ++ "[]" else t, st)
  | .listOf inner _, st =>
      match inner with
      | .nested sname _ _ _ => (sname ++ "[]", st)
      | _ => ((classMapping inner).getD "any" ++ "[]", st)
  | .dictOf key_field value_field _, st =>
      let keys_type := (classMapping key_field).getD "any"
      let r := get_ts_type value_field st
      ("\x7b[key: " ++ keys_type ++ "]: " ++ r.1 ++ "\x7d", r.2)
  | .scalar k _, st => ((mappings k).getD "any", st)

/-- The field loop of `_get_ts_interface` (lines 118-136): per field, the
OneOf-as-enum branch (reset the context's enum dict to `{}`, record the
derived name with the choice tuple, use the derived name as the type) or the
`_get_ts_type` path; then the `| null` suffix on `allow_none`, the `?` suffix
on not `required`, and the tab-indented `key: type;` line. -/
def fields_lines : MFields → GenState → List String × GenState
  | .nil, st => ([], st)
  | .cons key v rest, st =>
      let r₁ : String × GenState :=
        match v.meta.validate with
        | some (Validator.oneOf cs) =>
            if st.fctx.oneof_as_enum then
              let enums₁ := updateA st.enums st.fctx.context []
              let inner := (lookupA enums₁ st.fctx.context).getD []
              let enums₂ := updateA enums₁ st.fctx.context
                (updateA inner (snake_to_pascal_case key) cs)
              (snake_to_pascal_case key, { st with enums := enums₂ })
            else get_ts_type v st
        | _ => get_ts_type v st
      let st₁ := r₁.2
      let ts_type := if v.meta.allow_none then r₁.1 ++ "| null" else r₁.1
      let key' := if v.meta.required then key else key ++ "?"
      let line := tabs st₁.fctx.scope ++ key' ++ ": " ++ ts_type ++ ";"
      let r₂ := fields_lines rest st₁
      (line :: r₂.1, r₂.2)
end

/-- `_get_ts_interface` (lines 106-143) on a schema class. -/
def get_ts_interface (s : MSchema) (st : GenState) : String × GenState :=
  let name := format_type_name s.name st.fctx
  let r := fields_lines s.declared_fields st
  (interface_wrap name r.1 r.2.fctx.scope, r.2)

/-- Lines 119-125 factored out per field: the OneOf-as-enum branch or the
`_get_ts_type` path (this is exactly the computation `fields_lines` performs
for one field before the `| null` / `?` suffixes, see
`fields_lines_cons_eq`). -/
def field_base_type (key : String) (v : MField) (st : GenState) : String × GenState :=
  match v.meta.validate with
  | some (Validator.oneOf cs) =>
      if st.fctx.oneof_as_enum then
        let enums₁ := updateA st.enums st.fctx.context []
        let inner := (lookupA enums₁ st.fctx.context).getD []
        let enums₂ := updateA enums₁ st.fctx.context
          (updateA inner (snake_to_pascal_case key) cs)
        (snake_to_pascal_case key, { st with enums := enums₂ })
      else get_ts_type v st
  | _ => get_ts_type v st

/-- Lines 119-128 per field: the base type followed by the `| null` suffix
when `allow_none` is set. -/
def field_ts_type (key : String) (v : MField) (st : GenState) : String × GenState :=
  let r := field_base_type key v st
  (if v.meta.allow_none then r.1 ++ "| null" else r.1, r.2)

/-- One rendered enum declaration (lines 152-160): one `\tCHOICE = "choice",`
line per choice in declared order, the identifier upper-cased. -/
def enum_block (key : String) (choices : List String) : String :=
  let enum_fields := String.intercalate "\n"
    (choices.map fun choice => "\t" ++ upper choice ++ " = \"" ++ choice ++ "\",")
  "export enum " ++ key ++ " \x7b\n" ++ enum_fields ++ "\n\x7d"

/-- `_generate_enums_exports` (lines 146-165): render every enum recorded
under `context` (blocks joined with no separator), followed by one blank
line; the empty string when none is recorded. -/
def generate_enums_exports (enums : Enums) (context : String) : String :=
  let entries := (lookupA enums context).getD []
  let enum_exports := entries.map fun e => enum_block e.1 e.2
  if enum_exports.length > 0 then String.join enum_exports ++ "\n\n" else ""

/-- The list comprehension of line 197: one interface per registered schema,
threading the formatter context and the `__enums` state left to right. -/
def interfaces_fold : List MSchema → GenState → List String × GenState
  | [], st => ([], st)
  | s :: rest, st =>
      let r₁ := get_ts_interface s st
      let r₂ := interfaces_fold rest r₁.2
      (r₁.1 :: r₂.1, r₂.2)

/-- The observable outcome of one `generate_ts` call: the Python-level result
(`ok` or the escaping `KeyError`) and the output file (`none` = never opened,
`some s` = opened, current content `s`). -/
structure GenResult where
  result : Except String Unit
  fileContent : Option String
deriving Repr

/-- `generate_ts` (lines 168-199).  A fresh `_FormatterContext` (scope 1) is
built from the arguments; `open(output_path, 'w')` truncates the file before
the registry lookup `__schemas[fcontext.context]`, so a missing context
raises `KeyError` with an already-empty file left behind; otherwise the
interfaces are rendered first (recording all enum side effects), then the
enum text followed by the joined interface texts is written.  Returns the
observable outcome together with the final `__enums` state. -/
def generate_ts (registry : Registry) (enums0 : Enums) (context : String)
    (strip_schema_keyword : Bool) (oneof_as_enum : Bool) (nested_inner : Bool) :
    GenResult × Enums :=
  let fctx : FormatterContext :=
    { context := context, strip_schema_keyword := strip_schema_keyword,
      oneof_as_enum := oneof_as_enum, nested_inner := nested_inner, scope := 1 }
  match lookupA registry context with
  | none =>
      ({ result := Except.error ("KeyError: " ++ context), fileContent := some "" }, enums0)
  | some schemas =>
      let r := interfaces_fold schemas { fctx := fctx, enums := enums0 }
      let enumsText := generate_enums_exports r.2.enums context
      ({ result := Except.ok (),
         fileContent := some (enumsText ++ String.join r.1) }, r.2.enums)

/-- The `ts_interface` decorator (lines 18-52) for a single context string:
append the class to the context's list (creating it on first use) when the
class is a `Schema` subclass, leave the registry untouched otherwise. -/
def ts_interface_register (context : String) (s : MSchema) (is_schema_subclass : Bool)
    (registry : Registry) : Registry :=
  if is_schema_subclass then
    updateA registry context ((lookupA registry context).getD [] ++ [s])
  else registry

mutual
/-- The enum-recording events of one `_get_ts_type` call, in processing
order: with `nested_inner` an inline nested expansion processes the nested
schema's fields (which may record enums); a `Dict` recurses into its value
field; `List` and scalar fields never record. -/
def type_enum_events : MField → Bool → Bool → List (String × List String)
  | .nested _ sfields _ _, oe, ni => if ni then fields_enum_events sfields oe ni else []
  | .dictOf _ value_field _, oe, ni => type_enum_events value_field oe ni
  | .listOf _ _, _, _ => []
  | .scalar _ _, _, _ => []

/-- The enum-recording events of one interface's field loop, in processing
order: a field with a `OneOf` validator under `oneof_as_enum` records its
derived name with its choice tuple (and is not resolved through
`_get_ts_type`); any other field contributes its `_get_ts_type` events. -/
def fields_enum_events : MFields → Bool → Bool → List (String × List String)
  | .nil, _, _ => []
  | .cons key v rest, oe, ni =>
      (match v.meta.validate with
       | some (Validator.oneOf cs) =>
           if oe then [(snake_to_pascal_case key, cs)] else type_enum_events v oe ni
       | _ => type_enum_events v oe ni) ++ fields_enum_events rest oe ni
end

/-- The enum-recording events of the whole generation pass (line 197), one
schema after the other. -/
def schemas_enum_events : List MSchema → Bool → Bool → List (String × List String)
  | [], _, _ => []
  | s :: rest, oe, ni =>
      fields_enum_events s.declared_fields oe ni ++ schemas_enum_events rest oe ni

/-- The net effect on `__enums` of one enum-recording event: the source first
replaces the context's dict with `{}` and then inserts the single derived
name, so the context's dict ends up as exactly that singleton. -/
def applyEvents (enums : Enums) (c : String) : List (String × List String) → Enums
  | [] => enums
  | e :: rest => applyEvents (updateA enums c [e]) c rest

/-- The last element of a list, if any. -/
def lastEvent {α : Type} : List α → Option α
  | [] => none
  | [e] => some e
  | _ :: e :: rest => lastEvent (e :: rest)

/-- Convenience constructor for concrete field attributes. -/
def fmeta (required allow_none : Bool) (validate : Option Validator) : FieldMeta :=
  { required := required, allow_none := allow_none, validate := validate }

/-- The formatter context of a fresh default-configuration pass. -/
def fctxPlain : FormatterContext := FormatterContext.mk "default" false true false 1

/-- The formatter context of a pass with `strip_schema_keyword=True`. -/
def fctxStrip : FormatterContext := FormatterContext.mk "default" true true false 1

/-- The formatter context of a pass with `nested_inner=True`. -/
def fctxInner : FormatterContext := FormatterContext.mk "default" false true true 1

/-- A fresh default-configuration generation state (empty `__enums`). -/
def gstPlain : GenState := GenState.mk fctxPlain []

/-- A fresh stripping generation state (empty `__enums`). -/
def gstStrip : GenState := GenState.mk fctxStrip []

/-- A fresh inline-nested generation state (empty `__enums`). -/
def gstInner : GenState := GenState.mk fctxInner []

/-- The end-to-end scenario schema: `id` integer required, `role` string
with a `OneOf(["admin", "user"])` validator, `friends` a nested collection
of `UserSchema` itself (`many=True`), not required.  The self-reference is
represented by a nested reference carrying the class name; with
`nested_inner=False` (the scenario configuration) the generator reads
nothing but that name from the referenced class. -/
def UserSchema : MSchema :=
  { name := "UserSchema",
    declared_fields :=
      .cons "id" (.scalar .integer (fmeta true false none))
      (.cons "role" (.scalar .string (fmeta true false (some (Validator.oneOf ["admin", "user"]))))
      (.cons "friends" (.nested "UserSchema" .nil true (fmeta false false none)) .nil)) }

/-- A schema with two closed-choice fields of distinct derived names, used
to exhibit the per-context enum dict being clobbered per field. -/
def TwoEnumSchema : MSchema :=
  { name := "TwoEnumSchema",
    declared_fields :=
      .cons "role" (.scalar .string (fmeta true false (some (Validator.oneOf ["admin", "user"]))))
      (.cons "state" (.scalar .string (fmeta true false (some (Validator.oneOf ["on", "off"])))) .nil) }

theorem lookupA_updateA_self {α : Type} (m : List (String × α)) (k : String) (v : α) :
    lookupA (updateA m k v) k = some v := by
  induction m with
  | nil => simp [updateA, lookupA]
  | cons hd tl ih =>
      obtain ⟨k₀, v₀⟩ := hd
      by_cases h : k₀ = k
      · simp [updateA, lookupA, h]
      · simp [updateA, lookupA, h, ih]

theorem lookupA_updateA_ne {α : Type} (m : List (String × α)) (k k' : String) (v : α)
    (h : k ≠ k') : lookupA (updateA m k v) k' = lookupA m k' := by
  induction m with
  | nil => simp [updateA, lookupA, h]
  | cons hd tl ih =>
      obtain ⟨k₀, v₀⟩ := hd
      by_cases h₀ : k₀ = k
      · subst h₀
        simp [updateA, lookupA, h]
      · simp [updateA, lookupA, h₀, ih]

theorem updateA_updateA {α : Type} (m : List (String × α)) (k : String) (v w : α) :
    updateA (updateA m k v) k w = updateA m k w := by
  induction m with
  | nil => simp [updateA]
  | cons hd tl ih =>
      obtain ⟨k₀, v₀⟩ := hd
      by_cases h : k₀ = k
      · simp [updateA, h]
      · simp [updateA, h, ih]

theorem applyEvents_append (m : Enums) (c : String) (a b : List (String × List String)) :
    applyEvents m c (a ++ b) = applyEvents (applyEvents m c a) c b := by
  induction a generalizing m with
  | nil => simp [applyEvents]
  | cons e rest ih => simp [applyEvents, ih]

theorem lastEvent_cons_cons {α : Type} (a b : α) (l : List α) :
    lastEvent (a :: b :: l) = lastEvent (b :: l) := by
  simp [lastEvent]

theorem lastEvent_cons_some {α : Type} (a : α) (l : List α) :
    ∃ x, lastEvent (a :: l) = some x := by
  induction l generalizing a with
  | nil => exact ⟨a, rfl⟩
  | cons b t ih =>
      rw [lastEvent_cons_cons]
      exact ih b

theorem lookupA_applyEvents (m : Enums) (c : String) (evs : List (String × List String)) :
    lookupA (applyEvents m c evs) c =
      match lastEvent evs with
      | some e => some [e]
      | none => lookupA m c := by
  induction evs generalizing m with
  | nil => simp [applyEvents, lastEvent]
  | cons e rest ih =>
      cases rest with
      | nil => simp [applyEvents, lastEvent, lookupA_updateA_self]
      | cons e' rest' =>
          obtain ⟨x, hx⟩ := lastEvent_cons_some e' rest'
          rw [lastEvent_cons_cons, hx]
          have h₁ := ih (updateA m c [e])
          rw [hx] at h₁
          exact h₁

mutual
/-- `_get_ts_type` restores the formatter context: the only mutation is the
scope bump around an inline nested expansion, undone on return. -/
theorem get_ts_type_fctx : (v : MField) → (st : GenState) →
    ((get_ts_type v st).2).fctx = st.fctx
  | .nested sname sfields many meta, st => by
      simp only [get_ts_type]
      split
      · rw [fields_lines_fctx sfields]
        rfl
      · rfl
  | .listOf inner meta, st => by
      cases inner <;> simp [get_ts_type]
  | .dictOf key_field value_field meta, st => by
      simp only [get_ts_type]
      rw [get_ts_type_fctx value_field]
  | .scalar k meta, st => by simp [get_ts_type]

/-- The field loop of `_get_ts_interface` restores the formatter context. -/
theorem fields_lines_fctx : (fs : MFields) → (st : GenState) →
    ((fields_lines fs st).2).fctx = st.fctx
  | .nil, st => by simp [fields_lines]
  | .cons key v rest, st => by
      simp only [fields_lines]
      cases hv : v.meta.validate with
      | none =>
          simp only [hv]
          rw [fields_lines_fctx rest, get_ts_type_fctx v]
      | some val =>
          cases val with
          | oneOf cs =>
              simp only [hv]
              split
              · rw [fields_lines_fctx rest]
              · rw [fields_lines_fctx rest, get_ts_type_fctx v]
          | other =>
              simp only [hv]
              rw [fields_lines_fctx rest, get_ts_type_fctx v]
end

/-- Lines 121-122 as one net dict effect: resetting the context's enum dict
to `{}` and inserting one derived name leaves exactly that singleton under
the context. -/
theorem enum_record_step (m : Enums) (c name : String) (cs : List String) :
    updateA (updateA m c []) c
      (updateA ((lookupA (updateA m c []) c).getD []) name cs) =
      updateA m c [(name, cs)] := by
  rw [lookupA_updateA_self]
  simp only [Option.getD_some]
  rw [updateA_updateA]
  rfl

mutual
/-- The `__enums` state after `_get_ts_type` is the input state with the
call's enum-recording events applied under the pass's context. -/
theorem get_ts_type_enums : (v : MField) → (st : GenState) →
    ((get_ts_type v st).2).enums =
      applyEvents st.enums st.fctx.context
        (type_enum_events v st.fctx.oneof_as_enum st.fctx.nested_inner)
  | .nested sname sfields many meta, st => by
      simp only [get_ts_type, type_enum_events]
      split
      · rw [fields_lines_enums sfields]
      · rfl
  | .listOf inner meta, st => by
      cases inner <;> simp [get_ts_type, type_enum_events, applyEvents]
  | .dictOf key_field value_field meta, st => by
      simp only [get_ts_type, type_enum_events]
      rw [get_ts_type_enums value_field]
  | .scalar k meta, st => by simp [get_ts_type, type_enum_events, applyEvents]

/-- The `__enums` state after the field loop is the input state with the
loop's enum-recording events applied in order under the pass's context. -/
theorem fields_lines_enums : (fs : MFields) → (st : GenState) →
    ((fields_lines fs st).2).enums =
      applyEvents st.enums st.fctx.context
        (fields_enum_events fs st.fctx.oneof_as_enum st.fctx.nested_inner)
  | .nil, st => by simp [fields_lines, fields_enum_events, applyEvents]
  | .cons key v rest, st => by
      simp only [fields_lines, fields_enum_events]
      cases hv : v.meta.validate with
      | none =>
          simp only [hv]
          rw [applyEvents_append, fields_lines_enums rest, get_ts_type_enums v,
            get_ts_type_fctx v]
      | some val =>
          cases val with
          | oneOf cs =>
              simp only [hv]
              split
              · rw [applyEvents_append, fields_lines_enums rest, enum_record_step]
                rfl
              · rw [applyEvents_append, fields_lines_enums rest, get_ts_type_enums v,
                  get_ts_type_fctx v]
          | other =>
              simp only [hv]
              rw [applyEvents_append, fields_lines_enums rest, get_ts_type_enums v,
                get_ts_type_fctx v]
end

mutual
/-- The type expression `_get_ts_type` returns does not depend on the
`__enums` state: two calls from states sharing a formatter context yield the
same string. -/
theorem get_ts_type_str : (v : MField) → (st st' : GenState) → st.fctx = st'.fctx →
    (get_ts_type v st).1 = (get_ts_type v st').1
  | .nested sname sfields many meta, ⟨f, e⟩, ⟨f', e'⟩, h => by
      have h' : f = f' := h
      subst h'
      simp only [get_ts_type]
      split
      · have hL := fields_lines_str sfields (GenState.mk { f with scope := f.scope + 1 } e)
          (GenState.mk { f with scope := f.scope + 1 } e') rfl
        have hS₁ := fields_lines_fctx sfields (GenState.mk { f with scope := f.scope + 1 } e)
        have hS₂ := fields_lines_fctx sfields (GenState.mk { f with scope := f.scope + 1 } e')
        rw [hL, hS₁, hS₂]
      · rfl
  | .listOf inner meta, ⟨f, e⟩, ⟨f', e'⟩, h => by
      have h' : f = f' := h
      subst h'
      cases inner <;> simp [get_ts_type]
  | .dictOf key_field value_field meta, ⟨f, e⟩, ⟨f', e'⟩, h => by
      have h' : f = f' := h
      subst h'
      simp only [get_ts_type]
      rw [get_ts_type_str value_field (GenState.mk f e) (GenState.mk f e') rfl]
  | .scalar k meta, st, st', h => by simp [get_ts_type]

/-- The field lines of one interface do not depend on the `__enums` state:
two loops from states sharing a formatter context yield the same lines. -/
theorem fields_lines_str : (fs : MFields) → (st st' : GenState) → st.fctx = st'.fctx →
    (fields_lines fs st).1 = (fields_lines fs st').1
  | .nil, st, st', h => by simp [fields_lines]
  | .cons key v rest, ⟨f, e⟩, ⟨f', e'⟩, h => by
      have h' : f = f' := h
      subst h'
      simp only [fields_lines]
      cases hv : v.meta.validate with
      | none =>
          simp only [hv]
          have hf₁ := get_ts_type_fctx v (GenState.mk f e)
          have hf₂ := get_ts_type_fctx v (GenState.mk f e')
          have hts := get_ts_type_str v (GenState.mk f e) (GenState.mk f e') rfl
          have htail := fields_lines_str rest (get_ts_type v (GenState.mk f e)).2
            (get_ts_type v (GenState.mk f e')).2 (hf₁.trans hf₂.symm)
          rw [hf₁, hf₂, hts, htail]
      | some val =>
          cases val with
          | oneOf cs =>
              simp only [hv]
              split
              · have htail := fields_lines_str rest
                  (GenState.mk f (updateA (updateA e f.context []) f.context
                    (updateA ((lookupA (updateA e f.context []) f.context).getD [])
                      (snake_to_pascal_case key) cs)))
                  (GenState.mk f (updateA (updateA e' f.context []) f.context
                    (updateA ((lookupA (updateA e' f.context []) f.context).getD [])
                      (snake_to_pascal_case key) cs))) rfl
                rw [htail]
              · have hf₁ := get_ts_type_fctx v (GenState.mk f e)
                have hf₂ := get_ts_type_fctx v (GenState.mk f e')
                have hts := get_ts_type_str v (GenState.mk f e) (GenState.mk f e') rfl
                have htail := fields_lines_str rest (get_ts_type v (GenState.mk f e)).2
                  (get_ts_type v (GenState.mk f e')).2 (hf₁.trans hf₂.symm)
                rw [hf₁, hf₂, hts, htail]
          | other =>
              simp only [hv]
              have hf₁ := get_ts_type_fctx v (GenState.mk f e)
              have hf₂ := get_ts_type_fctx v (GenState.mk f e')
              have hts := get_ts_type_str v (GenState.mk f e) (GenState.mk f e') rfl
              have htail := fields_lines_str rest (get_ts_type v (GenState.mk f e)).2
                (get_ts_type v (GenState.mk f e')).2 (hf₁.trans hf₂.symm)
              rw [hf₁, hf₂, hts, htail]
end

/-- `_get_ts_interface` restores the formatter context. -/
theorem get_ts_interface_fctx (s : MSchema) (st : GenState) :
    ((get_ts_interface s st).2).fctx = st.fctx := by
  simp only [get_ts_interface]
  rw [fields_lines_fctx]

/-- The `__enums` state after `_get_ts_interface` is the input state with the
schema's enum-recording events applied under the pass's context. -/
theorem get_ts_interface_enums (s : MSchema) (st : GenState) :
    ((get_ts_interface s st).2).enums =
      applyEvents st.enums st.fctx.context
        (fields_enum_events s.declared_fields st.fctx.oneof_as_enum st.fctx.nested_inner) := by
  simp only [get_ts_interface]
  rw [fields_lines_enums]

/-- The interface text does not depend on the `__enums` state. -/
theorem get_ts_interface_str (s : MSchema) (st st' : GenState) (h : st.fctx = st'.fctx) :
    (get_ts_interface s st).1 = (get_ts_interface s st').1 := by
  simp only [get_ts_interface]
  rw [fields_lines_str s.declared_fields st st' h, fields_lines_fctx, fields_lines_fctx, h]

/-- The whole generation pass restores the formatter context. -/
theorem interfaces_fold_fctx (ss : List MSchema) (st : GenState) :
    ((interfaces_fold ss st).2).fctx = st.fctx := by
  induction ss generalizing st with
  | nil => simp [interfaces_fold]
  | cons s rest ih =>
      simp only [interfaces_fold]
      rw [ih, get_ts_interface_fctx]

/-- The `__enums` state after the whole generation pass is the input state
with all the pass's enum-recording events applied in order. -/
theorem interfaces_fold_enums (ss : List MSchema) (st : GenState) :
    ((interfaces_fold ss st).2).enums =
      applyEvents st.enums st.fctx.context
        (schemas_enum_events ss st.fctx.oneof_as_enum st.fctx.nested_inner) := by
  induction ss generalizing st with
  | nil => simp [interfaces_fold, schemas_enum_events, applyEvents]
  | cons s rest ih =>
      simp only [interfaces_fold, schemas_enum_events]
      rw [applyEvents_append, ih, get_ts_interface_enums, get_ts_interface_fctx]

/-- The interface texts of a generation pass do not depend on the `__enums`
state. -/
theorem interfaces_fold_str (ss : List MSchema) (st st' : GenState) (h : st.fctx = st'.fctx) :
    (interfaces_fold ss st).1 = (interfaces_fold ss st').1 := by
  induction ss generalizing st st' with
  | nil => simp [interfaces_fold]
  | cons s rest ih =>
      simp only [interfaces_fold]
      have h' : ((get_ts_interface s st).2).fctx = ((get_ts_interface s st').2).fctx := by
        rw [get_ts_interface_fctx, get_ts_interface_fctx, h]
      rw [get_ts_interface_str s st st' h, ih (get_ts_interface s st).2 (get_ts_interface s st').2 h']

/-- `field_base_type` restores the formatter context. -/
theorem field_base_type_fctx (key : String) (v : MField) (st : GenState) :
    ((field_base_type key v st).2).fctx = st.fctx := by
  cases hv : v.meta.validate with
  | none => simp [field_base_type, hv, get_ts_type_fctx]
  | some val =>
      cases val with
      | oneOf cs =>
          simp only [field_base_type, hv]
          split
          · rfl
          · rw [get_ts_type_fctx]
      | other => simp [field_base_type, hv, get_ts_type_fctx]

/-- The field loop processes one field exactly as `field_base_type` /
`field_ts_type` describe: the cons case of `fields_lines` is the indented
line built from `field_ts_type` followed by the loop on the remaining fields
from the state `field_base_type` leaves. -/
theorem fields_lines_cons_eq (key : String) (v : MField) (rest : MFields) (st : GenState) :
    fields_lines (.cons key v rest) st =
      ((tabs ((field_base_type key v st).2).fctx.scope ++
          (if v.meta.required then key else key ++ "?") ++ ": " ++
          (field_ts_type key v st).1 ++ ";") ::
        (fields_lines rest (field_base_type key v st).2).1,
       (fields_lines rest (field_base_type key v st).2).2) := by
  cases hv : v.meta.validate with
  | none => simp [fields_lines, field_ts_type, field_base_type, hv]
  | some val =>
      cases val with
      | oneOf cs => simp [fields_lines, field_ts_type, field_base_type, hv]
      | other => simp [fields_lines, field_ts_type, field_base_type, hv]

/-- Every line the field loop emits for the fields at this level is indented
by the entry scope's tabs (nested expansions restore the scope, so later
siblings are indented like earlier ones). -/
theorem fields_lines_indent : (fs : MFields) → (st : GenState) →
    ∀ l ∈ (fields_lines fs st).1, ∃ r, l = tabs st.fctx.scope ++ r
  | .nil, st => by simp [fields_lines]
  | .cons key v rest, st => by
      rw [fields_lines_cons_eq]
      intro l hl
      simp only [List.mem_cons] at hl
      rcases hl with rfl | hl
      · refine ⟨(if v.meta.required then key else key ++ "?") ++ ": " ++
          (field_ts_type key v st).1 ++ ";", ?_⟩
        rw [field_base_type_fctx]
        simp only [String.append_assoc]
      · have h₂ := fields_lines_indent rest (field_base_type key v st).2 l hl
        rw [field_base_type_fctx] at h₂
        exact h₂

/-- `_generate_enums_exports` reads only the context's own entry of
`__enums`. -/
theorem generate_enums_exports_congr (e e' : Enums) (c : String)
    (h : lookupA e c = lookupA e' c) :
    generate_enums_exports e c = generate_enums_exports e' c := by
  simp [generate_enums_exports, h]

/-- At top level (scope 1) every rendered interface block ends in a blank
line (it is some text followed by two newlines). -/
theorem interfaces_fold_blocks (ss : List MSchema) (st : GenState) (h1 : st.fctx.scope = 1) :
    ∀ i ∈ (interfaces_fold ss st).1, ∃ p, i = p ++ "\n\n" := by
  induction ss generalizing st with
  | nil => simp [interfaces_fold]
  | cons s rest ih =>
      intro i hi
      simp only [interfaces_fold, List.mem_cons] at hi
      rcases hi with rfl | hi
      · refine ⟨"export interface " ++ format_type_name s.name st.fctx ++ " \x7b\n" ++
          String.intercalate "\n" (fields_lines s.declared_fields st).1 ++ "\n\x7d", ?_⟩
        simp only [get_ts_interface, interface_wrap]
        rw [fields_lines_fctx, h1]
        simp
      · exact ih (get_ts_interface s st).2 (by rw [get_ts_interface_fctx, h1]) i hi

/-- Claim C1: registering `UserSchema` (fields `id` integer required, `role`
string constrained to the choices `["admin", "user"]`, `friends` a
non-required collection of nested `UserSchema`) under context `default` and
generating with `strip_schema_keyword=True`, `oneof_as_enum=True` produces
exactly an `export enum Role` block whose members are `ADMIN = "admin",`
then `USER = "user",`, a blank line, then an `export interface User` block
whose lines are `id: number;`, `role: Role;`, `friends?: User[];` in that
order, each indented by one tab. -/
theorem C1_end_to_end_scenario :
    (generate_ts (ts_interface_register "default" UserSchema true [])
        [] "default" true true false).1.fileContent =
      some ("export enum Role \x7b\n" ++ "\tADMIN = \"admin\",\n" ++ "\tUSER = \"user\",\n" ++
        "\x7d" ++ "\n\n" ++
        "export interface User \x7b\n" ++ "\tid: number;\n" ++ "\trole: Role;\n" ++
        "\tfriends?: User[];\n" ++ "\x7d" ++ "\n\n") := by
  rfl

/-- Claim C2: generating for a context that was never populated raises the
`KeyError` (which escapes to the caller), and the output file has already
been opened and truncated at that point, so an empty artifact is left
behind. -/
theorem C2_missing_context_truncates (registry : Registry) (enums0 : Enums) (c : String)
    (strip oe ni : Bool) (h : lookupA registry c = none) :
    (generate_ts registry enums0 c strip oe ni).1.result =
        Except.error ("KeyError: " ++ c) ∧
    (generate_ts registry enums0 c strip oe ni).1.fileContent = some "" := by
  simp [generate_ts, h]

/-- Witness for C2 at the empty registry and context `default`. -/
theorem C2_missing_context_truncates_witness :
    (generate_ts [] [] "default" false true false).1.result =
        Except.error ("KeyError: " ++ "default") ∧
    (generate_ts [] [] "default" false true false).1.fileContent = some "" :=
  C2_missing_context_truncates [] [] "default" false true false rfl

/-- Claim C3 as stated is false: generating over a context with zero
registered schemas (the empty registry, context `default`) does raise — the
result is not a normal return. -/
theorem C3_counterexample :
    ¬ ((generate_ts [] [] "default" false true false).1.result = Except.ok ()) := by
  intro hcon
  simp [generate_ts, lookupA] at hcon

/-- Claim C3 (amended): generation over a context that was never populated
raises a key-lookup failure (leaving the truncated empty artifact); only a
context explicitly mapped to an empty schema list — with no enum recorded
under it — yields an empty output with no error. -/
theorem C3_zero_schemas_amended (registry : Registry) (enums0 : Enums) (c : String)
    (strip oe ni : Bool) :
    (lookupA registry c = none →
      (generate_ts registry enums0 c strip oe ni).1.result =
          Except.error ("KeyError: " ++ c) ∧
      (generate_ts registry enums0 c strip oe ni).1.fileContent = some "") ∧
    (lookupA registry c = some [] → lookupA enums0 c = none →
      (generate_ts registry enums0 c strip oe ni).1.result = Except.ok () ∧
      (generate_ts registry enums0 c strip oe ni).1.fileContent = some "") := by
  constructor
  · intro h
    simp [generate_ts, h]
  · intro h he
    simp [generate_ts, h, interfaces_fold, generate_enums_exports, he, String.join]

/-- Witness for the amended C3: both branches at concrete inputs. -/
theorem C3_zero_schemas_amended_witness :
    (generate_ts [] [] "default" false true false).1.fileContent = some "" ∧
    (generate_ts [("default", [])] [] "default" false true false).1.result = Except.ok () ∧
    (generate_ts [("default", [])] [] "default" false true false).1.fileContent = some "" :=
  ⟨((C3_zero_schemas_amended [] [] "default" false true false).1 rfl).2,
    ((C3_zero_schemas_amended [("default", [])] [] "default" false true false).2 rfl rfl).1,
    ((C3_zero_schemas_amended [("default", [])] [] "default" false true false).2 rfl rfl).2⟩

/-- Claim C7: a `fields.List` whose inner field is a `fields.Nested`
reference resolves to the referenced schema class's raw `__name__` with `[]`
appended, with the state untouched — in particular no `Schema`-suffix
stripping and no inline expansion happen, whatever the configuration (the
state `st` is universally quantified, so this covers
`strip_schema_keyword=True` and `nested_inner=True`); by contrast a
nested-single field under stripping (and `nested_inner=False`) does get its
suffix stripped. -/
theorem C7_list_of_nested_raw_name (sname : String) (sfields : MFields) (m : Bool)
    (imeta meta imeta' : FieldMeta) (st : GenState) :
    get_ts_type (.listOf (.nested sname sfields m imeta) meta) st = (sname ++ "[]", st) ∧
    (st.fctx.nested_inner = false → st.fctx.strip_schema_keyword = true →
      str_ends_with sname "Schema" = true →
      (get_ts_type (.nested sname sfields false imeta') st).1 = str_drop_right sname 6) := by
  constructor
  · simp [get_ts_type]
  · intro hni hs he
    simp [get_ts_type, hni, format_type_name, hs, he]

/-- Witness for C7 at a concrete list-of-nested field under a stripping
configuration. -/
theorem C7_list_of_nested_raw_name_witness :
    get_ts_type (.listOf (.nested "UserSchema" .nil true (fmeta false false none))
        (fmeta false false none)) gstStrip = ("UserSchema" ++ "[]", gstStrip) ∧
    (get_ts_type (.nested "UserSchema" .nil false (fmeta false false none)) gstStrip).1 =
      "User" :=
  ⟨(C7_list_of_nested_raw_name "UserSchema" .nil true (fmeta false false none)
      (fmeta false false none) (fmeta false false none) gstStrip).1,
    (C7_list_of_nested_raw_name "UserSchema" .nil true (fmeta false false none)
      (fmeta false false none) (fmeta false false none) gstStrip).2 rfl rfl rfl⟩

/-- Claim C8: the rendered type of a field whose `allow_none` flag is true
is the kind-specific resolution with the null union appended (the source
appends the literal `| null`, with no space before the bar); with
`allow_none` false no null union is appended. -/
theorem C8_allow_none_null_union (key : String) (v : MField) (st : GenState) :
    (v.meta.allow_none = true →
      (field_ts_type key v st).1 = (field_base_type key v st).1 ++ "| null") ∧
    (v.meta.allow_none = false →
      (field_ts_type key v st).1 = (field_base_type key v st).1) := by
  constructor <;> intro h <;> simp [field_ts_type, h]

/-- Witness for C8 at a nullable string field and a non-nullable one. -/
theorem C8_allow_none_null_union_witness :
    (field_ts_type "name" (.scalar .string (fmeta true true none)) gstPlain).1 =
      "string" ++ "| null" ∧
    (field_ts_type "name" (.scalar .string (fmeta true false none)) gstPlain).1 = "string" :=
  ⟨(C8_allow_none_null_union "name" (.scalar .string (fmeta true true none)) gstPlain).1 rfl,
    (C8_allow_none_null_union "name" (.scalar .string (fmeta true false none)) gstPlain).2 rfl⟩

/-- Claim C9: after an inline nested expansion (`nested_inner=True`) returns,
the scope counter equals its pre-call value, and consequently every sibling
line the field loop renders at this level is indented by the same
`tabs st.fctx.scope` prefix, however deep earlier siblings recursed. -/
theorem C9_scope_restored (sname : String) (sfields : MFields) (m : Bool) (meta : FieldMeta)
    (st : GenState) (h : st.fctx.nested_inner = true) :
    ((get_ts_type (.nested sname sfields m meta) st).2).fctx.scope = st.fctx.scope ∧
    (∀ fs : MFields, ∀ l ∈ (fields_lines fs st).1, ∃ r, l = tabs st.fctx.scope ++ r) :=
  ⟨by rw [get_ts_type_fctx], fun fs => fields_lines_indent fs st⟩

/-- Witness for C9: a concrete inline expansion restores scope 1, and a
concrete sibling line is indented by one tab. -/
theorem C9_scope_restored_witness :
    ((get_ts_type (.nested "Inner"
        (.cons "a" (.scalar .integer (fmeta true false none)) .nil) false
        (fmeta true false none)) gstInner).2).fctx.scope = 1 ∧
    (∃ r, "\tid: number;" = tabs 1 ++ r) :=
  ⟨(C9_scope_restored "Inner" (.cons "a" (.scalar .integer (fmeta true false none)) .nil)
      false (fmeta true false none) gstInner rfl).1,
    (C9_scope_restored "Inner" (.cons "a" (.scalar .integer (fmeta true false none)) .nil)
      false (fmeta true false none) gstInner rfl).2
      (.cons "id" (.scalar .integer (fmeta true false none)) .nil) "\tid: number;"
      (by decide)⟩

/-- Claim C4: under `oneof_as_enum=True`, processing a field whose validator
is `OneOf(cs)` makes the field's type expression the PascalCase derivation of
the field name, records exactly one enum definition for it — the context's
enum dict becomes exactly the singleton mapping that derived name to the
choices in their declared order — and the rendered enum block lists the
choices in that order with upper-cased member identifiers; under
`oneof_as_enum=False` the field instead takes the plain scalar type from the
normal `_get_ts_type` mapping path. -/
theorem C4_oneof_enum_extraction (key : String) (kind : ScalarKind) (meta : FieldMeta)
    (cs : List String) (st : GenState) (h : meta.validate = some (Validator.oneOf cs)) :
    (st.fctx.oneof_as_enum = true →
      (field_base_type key (.scalar kind meta) st).1 = snake_to_pascal_case key ∧
      lookupA ((field_base_type key (.scalar kind meta) st).2).enums st.fctx.context =
        some [(snake_to_pascal_case key, cs)] ∧
      generate_enums_exports ((field_base_type key (.scalar kind meta) st).2).enums
          st.fctx.context = enum_block (snake_to_pascal_case key) cs ++ "\n\n") ∧
    (st.fctx.oneof_as_enum = false →
      field_base_type key (.scalar kind meta) st = ((mappings kind).getD "any", st)) := by
  have hm : (MField.scalar kind meta).meta = meta := rfl
  constructor
  · intro hoe
    have hE : ((field_base_type key (.scalar kind meta) st).2).enums =
        updateA st.enums st.fctx.context [(snake_to_pascal_case key, cs)] := by
      simp only [field_base_type, hm, h, hoe, if_true]
      exact enum_record_step st.enums st.fctx.context (snake_to_pascal_case key) cs
    refine ⟨?_, ?_, ?_⟩
    · simp only [field_base_type, hm, h, hoe, if_true]
    · rw [hE, lookupA_updateA_self]
    · rw [hE]
      simp [generate_enums_exports, lookupA_updateA_self, String.join]
  · intro hoe
    simp [field_base_type, hm, h, hoe, get_ts_type]

/-- Witness for C4 at the `role` field with choices `["admin", "user"]`, in
both configurations. -/
theorem C4_oneof_enum_extraction_witness :
    (field_base_type "role" (.scalar .string
        (fmeta true false (some (Validator.oneOf ["admin", "user"])))) gstPlain).1 = "Role" ∧
    lookupA ((field_base_type "role" (.scalar .string
        (fmeta true false (some (Validator.oneOf ["admin", "user"])))) gstPlain).2).enums
        "default" = some [("Role", ["admin", "user"])] ∧
    generate_enums_exports ((field_base_type "role" (.scalar .string
        (fmeta true false (some (Validator.oneOf ["admin", "user"])))) gstPlain).2).enums
        "default" = enum_block "Role" ["admin", "user"] ++ "\n\n" ∧
    field_base_type "role" (.scalar .string
        (fmeta true false (some (Validator.oneOf ["admin", "user"]))))
        (GenState.mk (FormatterContext.mk "default" false false false 1) []) =
      ("string", GenState.mk (FormatterContext.mk "default" false false false 1) []) := by
  have h₁ := (C4_oneof_enum_extraction "role" .string
    (fmeta true false (some (Validator.oneOf ["admin", "user"]))) ["admin", "user"]
    gstPlain rfl).1 rfl
  have h₂ := (C4_oneof_enum_extraction "role" .string
    (fmeta true false (some (Validator.oneOf ["admin", "user"]))) ["admin", "user"]
    (GenState.mk (FormatterContext.mk "default" false false false 1) []) rfl).2 rfl
  exact ⟨h₁.1, h₁.2.1, h₁.2.2, h₂⟩

/-- Claim C5: each closed-choice field processed under `oneof_as_enum=True`
replaces the context's whole enum dict with a fresh one holding only that
field's entry, so after all interfaces of a pass the context's enum dict is
exactly the singleton of the last closed-choice field processed (and is
untouched when the pass processed none); in particular, starting from a
state with nothing recorded under the context, at most one enum definition
is ever recorded for it. -/
theorem C5_enum_map_last_write_only (schemas : List MSchema) (st : GenState) :
    (lookupA ((interfaces_fold schemas st).2).enums st.fctx.context =
      match lastEvent (schemas_enum_events schemas st.fctx.oneof_as_enum
          st.fctx.nested_inner) with
      | some e => some [e]
      | none => lookupA st.enums st.fctx.context) ∧
    (lookupA st.enums st.fctx.context = none →
      ∀ m, lookupA ((interfaces_fold schemas st).2).enums st.fctx.context = some m →
        m.length ≤ 1) := by
  constructor
  · rw [interfaces_fold_enums, lookupA_applyEvents]
  · intro h0 m hm
    rw [interfaces_fold_enums, lookupA_applyEvents] at hm
    cases hlast : lastEvent (schemas_enum_events schemas st.fctx.oneof_as_enum
        st.fctx.nested_inner) with
    | some e =>
        rw [hlast] at hm
        simp only [Option.some.injEq] at hm
        rw [← hm]
        simp
    | none =>
        rw [hlast, h0] at hm
        exact absurd hm (by simp)

/-- Witness for C5: `TwoEnumSchema` has two closed-choice fields with
distinct derived names (`Role`, `State`); after the pass only the last one
(`State`) is recorded, and the recorded dict has at most one entry. -/
theorem C5_enum_map_last_write_only_witness :
    lookupA ((interfaces_fold [TwoEnumSchema] gstPlain).2).enums "default" =
      some [("State", ["on", "off"])] ∧
    [("State", ["on", "off"])].length ≤ 1 :=
  ⟨((C5_enum_map_last_write_only [TwoEnumSchema] gstPlain).1).trans (by decide),
    (C5_enum_map_last_write_only [TwoEnumSchema] gstPlain).2 rfl [("State", ["on", "off"])]
      (((C5_enum_map_last_write_only [TwoEnumSchema] gstPlain).1).trans (by decide))⟩

/-- The enum export text is empty or ends in a blank line. -/
theorem generate_enums_exports_shape (e : Enums) (c : String) :
    generate_enums_exports e c = "" ∨ ∃ p, generate_enums_exports e c = p ++ "\n\n" := by
  simp only [generate_enums_exports]
  split
  · exact Or.inr ⟨_, rfl⟩
  · exact Or.inl rfl

/-- Claim C6: for a populated context the written text is the enum
declarations followed by the interface declarations, assembled in one pass —
the enum text is rendered from the `__enums` state carrying the events of
all the pass's interfaces, i.e. only after every interface was generated —
and the declarations are separated by blank lines: every interface block,
and the (possibly empty) enum text, ends in a blank line. -/
theorem C6_output_layout (registry : Registry) (enums0 : Enums) (c : String)
    (strip oe ni : Bool) (schemas : List MSchema)
    (h : lookupA registry c = some schemas) :
    (generate_ts registry enums0 c strip oe ni).1.fileContent =
      some (generate_enums_exports
          (applyEvents enums0 c (schemas_enum_events schemas oe ni)) c ++
        String.join (interfaces_fold schemas
          (GenState.mk (FormatterContext.mk c strip oe ni 1) enums0)).1) ∧
    (∀ i ∈ (interfaces_fold schemas
        (GenState.mk (FormatterContext.mk c strip oe ni 1) enums0)).1,
      ∃ p, i = p ++ "\n\n") ∧
    (generate_enums_exports (applyEvents enums0 c (schemas_enum_events schemas oe ni)) c =
        "" ∨
      ∃ p, generate_enums_exports
          (applyEvents enums0 c (schemas_enum_events schemas oe ni)) c = p ++ "\n\n") := by
  refine ⟨?_, ?_, ?_⟩
  · simp only [generate_ts, h]
    rw [interfaces_fold_enums]
  · exact interfaces_fold_blocks schemas _ rfl
  · exact generate_enums_exports_shape _ c

/-- Witness for C6 at the end-to-end scenario registry. -/
theorem C6_output_layout_witness :
    (generate_ts [("default", [UserSchema])] [] "default" true true false).1.fileContent =
      some (generate_enums_exports
          (applyEvents [] "default" (schemas_enum_events [UserSchema] true false)) "default" ++
        String.join (interfaces_fold [UserSchema]
          (GenState.mk (FormatterContext.mk "default" true true false 1) [])).1) :=
  (C6_output_layout [("default", [UserSchema])] [] "default" true true false
    [UserSchema] rfl).1

/-- Helper for C10: the context's `__enums` entry after a second identical
pass equals the entry after the first (the last recorded event wins either
way, and a pass with no events leaves the entry alone). -/
theorem enums_pass_idempotent (schemas : List MSchema) (f : FormatterContext) (e0 : Enums) :
    lookupA ((interfaces_fold schemas
        (GenState.mk f ((interfaces_fold schemas (GenState.mk f e0)).2).enums)).2).enums
        f.context =
      lookupA ((interfaces_fold schemas (GenState.mk f e0)).2).enums f.context := by
  rw [interfaces_fold_enums schemas
    (GenState.mk f ((interfaces_fold schemas (GenState.mk f e0)).2).enums)]
  rw [interfaces_fold_enums schemas (GenState.mk f e0)]
  dsimp only
  rw [lookupA_applyEvents, lookupA_applyEvents]
  cases hlast : lastEvent (schemas_enum_events schemas f.oneof_as_enum f.nested_inner) with
  | some e => simp [hlast]
  | none => simp only [hlast]

/-- Claim C10: running `generate_ts` twice with the same registry state and
the same configuration yields byte-identical observable output both times
(identical file content and identical result), even though the first run
leaves its `__enums` side effects behind for the second run to start from. -/
theorem C10_generation_deterministic (registry : Registry) (enums0 : Enums) (c : String)
    (strip oe ni : Bool) :
    (generate_ts registry (generate_ts registry enums0 c strip oe ni).2
        c strip oe ni).1.fileContent =
      (generate_ts registry enums0 c strip oe ni).1.fileContent ∧
    (generate_ts registry (generate_ts registry enums0 c strip oe ni).2
        c strip oe ni).1.result =
      (generate_ts registry enums0 c strip oe ni).1.result := by
  cases hc : lookupA registry c with
  | none => simp [generate_ts, hc]
  | some schemas =>
      refine ⟨?_, ?_⟩
      · simp only [generate_ts, hc]
        rw [interfaces_fold_str schemas
          (GenState.mk (FormatterContext.mk c strip oe ni 1)
            ((interfaces_fold schemas
              (GenState.mk (FormatterContext.mk c strip oe ni 1) enums0)).2).enums)
          (GenState.mk (FormatterContext.mk c strip oe ni 1) enums0) rfl]
        rw [generate_enums_exports_congr _ _ c
          (enums_pass_idempotent schemas (FormatterContext.mk c strip oe ni 1) enums0)]
      · simp only [generate_ts, hc]
